import Mathlib

/-!
Verification of the analytics core of `src/stats.js`: robust outlier
scoring (median/MAD), percentile interpolation, column standardization and
deterministic k-means with k-means++ seeding driven by a Mulberry32 stream.

Numbers are modelled exactly: finite JavaScript doubles become rationals
(`ℚ`); the non-finite values `Infinity`, `-Infinity`, `NaN` that the code
filters with `Number.isFinite` are modelled by the `JSNum` type.  The
column standardizer needs `Math.sqrt` and is modelled over `ℝ`.
-/

namespace PerfScope

-- Batteries marks the rational-number arithmetic irreducible, which blocks
-- `decide` on concrete inputs; restore the default reducibility locally.
attribute [local semireducible] Rat.add Rat.mul Rat.sub Rat.inv

/-- Model of a JavaScript number as it appears in record fields:
either a finite value (an exact rational) or one of the non-finite
values that `Number.isFinite` rejects. -/
inductive JSNum where
  | fin : ℚ → JSNum
  | posInf : JSNum
  | negInf : JSNum
  | nan : JSNum
deriving DecidableEq

/-- `Number.isFinite`. -/
def JSNum.isFinite : JSNum → Bool
  | .fin _ => true
  | _ => false

/-- The rational value of a finite `JSNum` (only used after an
`isFinite` filter, so the default for non-finite inputs is irrelevant). -/
def JSNum.q : JSNum → ℚ
  | .fin a => a
  | _ => 0

/-- JavaScript `+` on our number model (finite + finite never overflows
in the model; non-finite operands propagate as in IEEE arithmetic). -/
def JSNum.add : JSNum → JSNum → JSNum
  | .nan, _ => .nan
  | _, .nan => .nan
  | .fin a, .fin b => .fin (a + b)
  | .fin _, .posInf => .posInf
  | .posInf, .fin _ => .posInf
  | .posInf, .posInf => .posInf
  | .fin _, .negInf => .negInf
  | .negInf, .fin _ => .negInf
  | .negInf, .negInf => .negInf
  | .posInf, .negInf => .nan
  | .negInf, .posInf => .nan

/-- A performance entry as far as the analytics core reads it:
an id plus the `startTime` and `duration` fields. -/
structure Entry where
  id : Nat
  startTime : JSNum
  duration : JSNum
deriving DecidableEq

/-- `list.map(...).filter(Number.isFinite)` followed by reading the values:
the finite rationals of a list of JS numbers, in order. -/
def finiteOf (l : List JSNum) : List ℚ :=
  (l.filter JSNum.isFinite).map JSNum.q

/-- `Math.min(...xs)` for a non-empty spread (the `[]` case is guarded
at every use site). -/
def listMin : List ℚ → ℚ
  | [] => 0
  | x :: xs => xs.foldl min x

/-- `Math.max(...xs)` for a non-empty spread. -/
def listMax : List ℚ → ℚ
  | [] => 0
  | x :: xs => xs.foldl max x

/-- `xs.sort((a,b)=>a-b)`: stable ascending sort of numbers. -/
def sortAsc (l : List ℚ) : List ℚ := l.insertionSort (· ≤ ·)

/-- `Math.ceil`, computed as the negated floor of the negation (an exact
identity of the ceiling function; `Rat.floor` is used because it reduces
in the kernel). -/
def ratCeil (q : ℚ) : ℤ := -(Rat.floor (-q))

/-- `percentileSorted(a, p)` from the source: fractional index
`i = (n-1)*p`, then linear interpolation between `a[floor(i)]` and
`a[ceil(i)]` with weight `i - floor(i)`.  (Index accesses are within
bounds whenever `p ∈ [0,1]`, the only range the program uses.) -/
def percentileSorted (a : List ℚ) (p : ℚ) : ℚ :=
  let n := a.length
  if n = 0 then 0
  else
    let i : ℚ := ((n : ℚ) - 1) * p
    let lo : ℤ := Rat.floor i
    let hi : ℤ := ratCeil i
    if lo = hi then a.getD lo.toNat 0
    else
      let t : ℚ := i - lo
      a.getD lo.toNat 0 * (1 - t) + a.getD hi.toNat 0 * t

/-- `percentile(xs, p)` from the source: `0` on empty input, otherwise
sort ascending and delegate to `percentileSorted`. -/
def percentile (xs : List ℚ) (p : ℚ) : ℚ :=
  if xs.length = 0 then 0
  else percentileSorted (sortAsc xs) p

/-- `median(sorted)` from the source. -/
def median (sorted : List ℚ) : ℚ := percentileSorted sorted (1/2)

/-- `{minTime, maxTime, p50Duration, p95Duration}`. -/
structure StatsSummary where
  minTime : ℚ
  maxTime : ℚ
  p50Duration : ℚ
  p95Duration : ℚ
deriving DecidableEq

/-- `computeStats(entries)` from the source. -/
def computeStats (entries : List Entry) : StatsSummary :=
  let times := finiteOf (entries.map (·.startTime))
  let ends := finiteOf (entries.map (fun e => e.startTime.add e.duration))
  let durs := finiteOf (entries.map (·.duration))
  { minTime := if times.length ≠ 0 then listMin times else 0
    maxTime := if ends.length ≠ 0 then listMax ends else 0
    p50Duration := percentile durs (50/100)
    p95Duration := percentile durs (95/100) }

/-- An `{entry, z}` object produced by the outlier detector. -/
structure Scored where
  entry : Entry
  z : ℚ
deriving DecidableEq

/-- `.sort((a,b)=>b.z-a.z)`: stable descending sort by score. -/
def sortScoredDesc (l : List Scored) : List Scored :=
  l.insertionSort (fun a b => b.z ≤ a.z)

/-- `{ entry: e, z: (e.duration - med) * scale }` from the source. -/
def scored (med scale : ℚ) (e : Entry) : Scored :=
  ⟨e, (e.duration.q - med) * scale⟩

/-- `robustZOutliers(entries, {topN})` from the source. -/
def robustZOutliers (entries : List Entry) (topN : Nat) : List Scored :=
  let d := sortAsc (finiteOf (entries.map (·.duration)))
  if d.length < 8 then []
  else
    let med := percentileSorted d (1/2)
    let mad0 := median (sortAsc (d.map (fun x => |x - med|)))
    -- `|| 1e-9` in the source replaces a (numerically) zero MAD.
    let mad := if mad0 = 0 then 1/1000000000 else mad0
    let scale := (6745/10000) / mad
    (sortScoredDesc
      (((entries.filter (fun e => e.duration.isFinite)).map
          (scored med scale)).filter
        (fun o => 5/2 < o.z))).take topN

/-! ### Column standardizer (`normalizeRows`)

`Math.sqrt` forces this single component to be modelled over `ℝ`. -/

/-- Column sums of the matrix: `for (r of rows) mu[j] += r[j]`. -/
noncomputable def colSum (rows : List (List ℝ)) (j : Nat) : ℝ :=
  (rows.map (fun r => r.getD j 0)).sum

/-- Column means `mu[j] /= n`. -/
noncomputable def colMean (rows : List (List ℝ)) (j : Nat) : ℝ :=
  colSum rows j / rows.length

/-- Squared-deviation sums `s2[j] += (r[j]-mu[j])**2`. -/
noncomputable def colS2 (rows : List (List ℝ)) (j : Nat) : ℝ :=
  (rows.map (fun r => (r.getD j 0 - colMean rows j) ^ 2)).sum

/-- `sd = s2.map(v => Math.sqrt(v / Math.max(1, n-1)) || 1)`: the sample
standard deviation of column `j`, with a zero result replaced by `1`
(the `|| 1` in the source; its NaN case cannot arise over `ℝ`). -/
noncomputable def colSd (rows : List (List ℝ)) (j : Nat) : ℝ :=
  let v := Real.sqrt (colS2 rows j / (max 1 (rows.length - 1) : Nat))
  if v = 0 then 1 else v

/-- `normalizeRows(rows)` from the source: each row is mapped over its own
entries, entry `j` becoming `(x - mu[j]) / sd[j]`. -/
noncomputable def normalizeRows (rows : List (List ℝ)) : List (List ℝ) :=
  rows.map (fun r => r.mapIdx (fun j x => (x - colMean rows j) / colSd rows j))

/-! ### Mulberry32 and k-means -/

/-- One step of the Mulberry32 generator from the source: the state is the
32-bit pattern of the captured variable `a`; a call advances
`a += 0x6D2B79F5` and returns the mixed value divided by `2^32`.
`Math.imul`, `^`, `|`, `>>>` all act on 32-bit patterns, so each mixing
stage is arithmetic on naturals reduced `% 2^32`. -/
def mulberryNext (a : Nat) : ℚ × Nat :=
  let a2 := (a + 0x6D2B79F5) % 4294967296
  let t1 := ((a2 ^^^ (a2 >>> 15)) * (a2 ||| 1)) % 4294967296
  let t2 := t1 ^^^ ((t1 + ((t1 ^^^ (t1 >>> 7)) * (t1 ||| 61)) % 4294967296) % 4294967296)
  let r := t2 ^^^ (t2 >>> 14)
  ((r : ℚ) / 4294967296, a2)

/-- `sqDist(a, b)`: squared Euclidean distance, iterating over the indices
of `a` (out-of-range reads of `b`, NaN in JavaScript, only occur on ragged
input, which every claim excludes). -/
def sqDist (a b : List ℚ) : ℚ :=
  (List.range a.length).foldl
    (fun s i =>
      let d := a.getD i 0 - b.getD i 0
      s + d * d) 0

/-- `X[Math.floor(rand()*n)]`: index drawn from a stream value. -/
def drawIndex (rv : ℚ) (n : Nat) : Nat := (Rat.floor (rv * n)).toNat

/-- The selection walk of the k-means++ round:
`for (i) { r -= dist[i]; if (r <= 0) { idx = i; break } }` with the
fallback `idx = 0` when the loop runs out. -/
def walkIdx : ℚ → List ℚ → Nat → Nat
  | _, [], _ => 0
  | r, dd :: ds, i => if r - dd ≤ 0 then i else walkIdx (r - dd) ds (i + 1)

/-- One iteration of the k-means++ `while` loop: distances of every point
to its nearest chosen center, a threshold `r = rand() * sum`, and the
selection walk; the chosen point is pushed onto `centers`. -/
def chooseNext (X : List (List ℚ)) (centers : List (List ℚ)) (rng : Nat) :
    List (List ℚ) × Nat :=
  let dist := X.map (fun x => listMin (centers.map (fun c => sqDist x c)))
  let sum := dist.foldl (· + ·) 0
  let idx := walkIdx ((mulberryNext rng).1 * sum) dist 0
  (centers ++ [X.getD idx []], (mulberryNext rng).2)

/-- The k-means++ `while (centers.length < k)` loop: starting from one
center, each iteration adds exactly one, so it runs `k - 1` times. -/
def initLoop (X : List (List ℚ)) : Nat → List (List ℚ) × Nat → List (List ℚ) × Nat
  | 0, st => st
  | m + 1, st => initLoop X m (chooseNext X st.1 st.2)

/-- k-means++ initialization: first center `X[Math.floor(rand()*n)]`, then
the weighted-selection loop until `k` centers exist. -/
def kmeansInit (X : List (List ℚ)) (k : Nat) (seed : Nat) : List (List ℚ) × Nat :=
  initLoop X (k - 1)
    ([X.getD (drawIndex (mulberryNext seed).1 X.length) []], (mulberryNext seed).2)

/-- The assignment scan for one point: `for (j = 0; j < k; j++)` keeping
the first center index attaining the minimal squared distance
(`bestD` starts at `Infinity`, modelled by `none`). -/
def nearestIdx (k : Nat) (centers : List (List ℚ)) (x : List ℚ) : Nat :=
  ((List.range k).foldl
    (fun bd j =>
      let dd := sqDist x (centers.getD j [])
      match bd.2 with
      | none => (j, some dd)
      | some b => if dd < b then (j, some dd) else bd)
    ((0 : Nat), (none : Option ℚ))).1

/-- `changed`: how many points got a different cluster this round. -/
def changedCount (old upd : List Nat) : Nat :=
  ((old.zip upd).filter (fun p => p.1 ≠ p.2)).length

/-- `cnt[c]`: the number of points assigned to cluster `c`. -/
def clusterCnt (assign : List Nat) (c : Nat) : Nat :=
  (assign.filter (fun a => a = c)).length

/-- Componentwise vector addition on the first `d` coordinates
(`next[a][j] += X[i][j]`). -/
def vecAdd (d : Nat) (u v : List ℚ) : List ℚ :=
  (List.range d).map (fun j => u.getD j 0 + v.getD j 0)

/-- `next[c]` before division: the componentwise sum of the points
assigned to cluster `c`. -/
def clusterSum (X : List (List ℚ)) (assign : List Nat) (c d : Nat) : List ℚ :=
  ((X.zip assign).filter (fun p => p.2 = c)).foldl
    (fun acc p => vecAdd d acc p.1) (List.replicate d 0)

/-- The update stage `for (c = 0; c < k; c++)`: an empty cluster is
reseeded from a fresh stream draw (`X[Math.floor(rand()*n)].slice()`),
otherwise the center becomes the mean of its points.  The stream is
consumed only on empty clusters, in ascending `c` order. -/
def updateLoop (X : List (List ℚ)) (d : Nat) (assign : List Nat) :
    List Nat → Nat → List (List ℚ) × Nat
  | [], rng => ([], rng)
  | c :: cs, rng =>
    if clusterCnt assign c = 0 then
      let rest := updateLoop X d assign cs (mulberryNext rng).2
      (X.getD (drawIndex (mulberryNext rng).1 X.length) [] :: rest.1, rest.2)
    else
      let m : ℚ := clusterCnt assign c
      let rest := updateLoop X d assign cs rng
      ((clusterSum X assign c d).map (fun s => s / m) :: rest.1, rest.2)

/-- The mutable state of the Lloyd loop. -/
structure LState where
  centers : List (List ℚ)
  assign : List Nat
  rng : Nat
deriving DecidableEq

/-- One Lloyd round: assignment scan over all points, then the center
update; `centers[c] = next[c]` for `c < k` leaves any further entries of
the centers array in place (`++ drop k`).  Returns the new state and the
round's `changed` count. -/
def lloydRound (X : List (List ℚ)) (k d : Nat) (st : LState) : LState × Nat :=
  let a2 := X.map (nearestIdx k st.centers)
  let upd := updateLoop X d a2 (List.range k) st.rng
  (⟨upd.1 ++ st.centers.drop k, a2, upd.2⟩, changedCount st.assign a2)

/-- The Lloyd `for (t = 0; t < iters; t++)` loop with its
`if (!changed) break`.  Besides the final state it returns the trace of
per-round `changed` counts, one entry per executed round. -/
def lloydLoop (X : List (List ℚ)) (k d : Nat) : Nat → LState → LState × List Nat
  | 0, st => (st, [])
  | fuel + 1, st =>
    let p := lloydRound X k d st
    if p.2 = 0 then (p.1, [p.2])
    else
      let q := lloydLoop X k d fuel p.1
      (q.1, p.2 :: q.2)

/-- The `{centers, assign}` result object. -/
structure KMResult where
  centers : List (List ℚ)
  assign : List Nat
deriving DecidableEq

/-- `kmeans(X, k, {seed, iters})` from the source.  The two guards mirror
the runtime errors of the JavaScript original (`none` models a thrown
`TypeError`): an empty `X` fails at `X[0].length`, and `k = 0` with a
non-trivial dimension and at least one round fails at `next[a][j]` in the
first update (`next` is empty while every point is assigned to cluster 0).
No other input makes the function throw — in particular `k` is never
validated against `[1, n]`. -/
def kmeans (X : List (List ℚ)) (k seed iters : Nat) : Option KMResult :=
  if X.length = 0 then none
  else if k = 0 ∧ (X.headD []).length ≠ 0 ∧ iters ≠ 0 then none
  else
    let d := (X.headD []).length
    let st0 : LState :=
      ⟨(kmeansInit X k seed).1, List.replicate X.length 0, (kmeansInit X k seed).2⟩
    some ⟨(lloydLoop X k d iters st0).1.centers, (lloydLoop X k d iters st0).1.assign⟩

/-! ### Specification-side definitions

These are written from the words of the specification, to be compared
with the definitions translated from the source. -/

/-- The rational value of a finite JS number, `none` otherwise. -/
def toFin : JSNum → Option ℚ
  | .fin q => some q
  | _ => none

/-- Spec side of C10: the maximum of `startTime + duration` over records
where that sum is finite, defaulting to `0`. -/
def specMaxTime (entries : List Entry) : ℚ :=
  (((entries.map (fun e => e.startTime.add e.duration)).filterMap toFin).max?).getD 0

/-- Spec side of C10: the minimum finite `startTime`, defaulting to `0`. -/
def specMinTime (entries : List Entry) : ℚ :=
  (((entries.map (·.startTime)).filterMap toFin).min?).getD 0

/-- Spec side of C4: sort the values ascending and linearly interpolate
between `values[floor(i)]` and `values[ceil(i)]` at fractional index
`i = (n-1)*p` with weight `i - floor(i)`. -/
def specPercentile (xs : List ℚ) (p : ℚ) : ℚ :=
  let a := sortAsc xs
  let i : ℚ := ((a.length : ℚ) - 1) * p
  let t : ℚ := i - ⌊i⌋
  a.getD (⌊i⌋).toNat 0 * (1 - t) + a.getD (⌈i⌉).toNat 0 * t

/-- Spec side of C7: walk the points in input order subtracting each
distance from `r`; select the first point where the running value drops
to `≤ 0` — equivalently, the first index whose distance prefix sum
reaches `r`. -/
def specSelect (r : ℚ) (dist : List ℚ) : Nat :=
  (((List.range dist.length).find?
    (fun i => r ≤ (dist.take (i + 1)).sum)).getD 0)

/-- Spec side of C7: one k-means++ selection round — squared Euclidean
distance of every point to its nearest already-chosen center, threshold
`r = rand() * sum(distances)`, then the selection walk. -/
def specChoose (X : List (List ℚ)) (centers : List (List ℚ)) (rng : Nat) :
    List (List ℚ) × Nat :=
  let dist := X.map (fun x => ((centers.map (fun c => sqDist x c)).min?).getD 0)
  let idx := specSelect ((mulberryNext rng).1 * dist.sum) dist
  (centers ++ [X.getD idx []], (mulberryNext rng).2)

/-- Spec side of C7: repeat the selection round until `k` centers exist. -/
def specInitLoop (X : List (List ℚ)) :
    Nat → List (List ℚ) × Nat → List (List ℚ) × Nat
  | 0, st => st
  | m + 1, st => specInitLoop X m (specChoose X st.1 st.2)

/-- Spec side of C7: first center `X[floor(rand()*n)]`, then `k - 1`
weighted selection rounds. -/
def specInit (X : List (List ℚ)) (k : Nat) (seed : Nat) :
    List (List ℚ) × Nat :=
  specInitLoop X (k - 1)
    ([X.getD (⌊(mulberryNext seed).1 * X.length⌋).toNat []],
      (mulberryNext seed).2)

/-- Spec side of C3: the robust z-score of an entry given the median
`med` of the finite durations and the (zero-replaced) MAD `mad`:
`z = (duration - med) * 0.6745 / mad`. -/
def specScored (med mad : ℚ) (e : Entry) : Scored :=
  ⟨e, (e.duration.q - med) * (6745/10000) / mad⟩

/-- Spec side of C3: exactly the finite-duration records whose robust
z-score exceeds 2.5, where `med` is the median of the finite durations
and `mad` the median absolute deviation (replaced by `1e-9` when it is
numerically zero), sorted by z descending and truncated to `topN`. -/
def specOutliers (entries : List Entry) (topN : Nat) : List Scored :=
  let durs := finiteOf (entries.map (·.duration))
  let med := percentile durs (1/2)
  let mad0 := percentile (durs.map (fun x => |x - med|)) (1/2)
  let mad := if mad0 = 0 then 1/1000000000 else mad0
  (sortScoredDesc
    (((entries.filter (fun e => e.duration.isFinite)).map
        (specScored med mad)).filter
      (fun o => 5/2 < o.z))).take topN

instance : IsTotal Scored (fun a b => b.z ≤ a.z) :=
  ⟨fun a b => le_total b.z a.z⟩

instance : IsTrans Scored (fun a b => b.z ≤ a.z) :=
  ⟨fun _ _ _ h1 h2 => le_trans h2 h1⟩

/-! ### Helper lemmas -/

lemma ratFloor_eq (q : ℚ) : Rat.floor q = ⌊q⌋ :=
  (Rat.floor_def' q).trans Rat.floor_def.symm

lemma ratCeil_eq (q : ℚ) : ratCeil q = ⌈q⌉ := by
  rw [ratCeil, ratFloor_eq, Int.floor_neg, neg_neg]

lemma sortAsc_length (l : List ℚ) : (sortAsc l).length = l.length :=
  List.length_insertionSort _ l

lemma sortAsc_perm (l : List ℚ) : List.Perm (sortAsc l) l :=
  List.perm_insertionSort _ l

lemma sortAsc_sorted (l : List ℚ) : (sortAsc l).Sorted (· ≤ ·) :=
  List.sorted_insertionSort _ l

/-- A sorted ascending run is unique among permutations, so `sortAsc`
is invariant under permutation of its input. -/
lemma sortAsc_congr_perm {l₁ l₂ : List ℚ} (h : List.Perm l₁ l₂) :
    sortAsc l₁ = sortAsc l₂ := by
  refine List.eq_of_perm_of_sorted ?_ (sortAsc_sorted l₁) (sortAsc_sorted l₂)
  exact ((sortAsc_perm l₁).trans h).trans (sortAsc_perm l₂).symm

lemma finiteOf_eq_filterMap (l : List JSNum) : finiteOf l = l.filterMap toFin := by
  induction l with
  | nil => rfl
  | cons x xs ih =>
    cases x <;> simp [finiteOf, toFin, JSNum.isFinite, JSNum.q, List.filter_cons] at ih ⊢ <;>
      exact ih

/-! ### Claim C4 -/

/-- C4: `percentile` returns `0` on the empty sequence for every `p`; on a
non-empty sequence with `p ∈ [0,1]` it sorts ascending and linearly
interpolates between `values[floor(i)]` and `values[ceil(i)]` at
`i = (n-1)*p` with weight `i - floor(i)`; in particular
`percentile([1,2,3,4], 0.5) = 2.5` and `percentile([10], 0.9) = 10`. -/
theorem percentile_correct :
    (∀ p : ℚ, percentile [] p = 0) ∧
    (∀ (xs : List ℚ) (p : ℚ), xs ≠ [] → 0 ≤ p → p ≤ 1 →
      percentile xs p = specPercentile xs p) ∧
    percentile [1, 2, 3, 4] (1/2) = 5/2 ∧
    percentile [10] (9/10) = 10 := by
  refine ⟨fun p => rfl, fun xs p hxs hp0 hp1 => ?_, by decide, by decide⟩
  have hlen : xs.length ≠ 0 := fun h => hxs (List.length_eq_zero.mp h)
  have hslen : (sortAsc xs).length ≠ 0 := by rwa [sortAsc_length]
  rw [percentile, if_neg hlen, percentileSorted, specPercentile]
  simp only [if_neg hslen, ratFloor_eq, ratCeil_eq]
  set i : ℚ := (((sortAsc xs).length : ℚ) - 1) * p with hi
  by_cases hfc : ⌊i⌋ = ⌈i⌉
  · rw [if_pos hfc, ← hfc]
    ring
  · rw [if_neg hfc]

/-- Witness for C4 at a concrete non-empty input. -/
theorem percentile_correct_witness :
    percentile [5, 1, 3] (1/4) = specPercentile [5, 1, 3] (1/4) :=
  percentile_correct.2.1 [5, 1, 3] (1/4) (by decide) (by decide) (by decide)

/-! ### Claim C6 -/

/-- C6: with fewer than 8 finite durations the outlier detector returns
the empty sequence, whatever `topN` and however spread out the values. -/
theorem robustZOutliers_insufficient :
    ∀ (entries : List Entry) (topN : Nat),
      (finiteOf (entries.map (·.duration))).length < 8 →
      robustZOutliers entries topN = [] := by
  intro entries topN h
  rw [robustZOutliers]
  simp only [sortAsc_length]
  rw [if_pos h]

/-- Witness for C6: five widely spread durations yield no outliers. -/
theorem robustZOutliers_insufficient_witness :
    robustZOutliers
      [⟨0, .fin 0, .fin 1⟩, ⟨1, .fin 0, .fin 2⟩, ⟨2, .fin 0, .fin 3⟩,
       ⟨3, .fin 0, .fin 4⟩, ⟨4, .fin 0, .fin 1000000⟩] 10 = [] :=
  robustZOutliers_insufficient _ 10 (by decide)

/-! ### Claim C1 -/

/-- C1: the k-means clusterer is deterministic — two invocations on
identical matrices, cluster counts, seeds and iteration caps return
identical centers and identical assignments (in the embedding all
randomness is threaded from the seeded Mulberry32 state, so the function
is pure). -/
theorem kmeans_deterministic :
    ∀ (X₁ X₂ : List (List ℚ)) (k₁ k₂ s₁ s₂ i₁ i₂ : Nat),
      X₁ = X₂ → k₁ = k₂ → s₁ = s₂ → i₁ = i₂ →
      (kmeans X₁ k₁ s₁ i₁).map KMResult.centers =
        (kmeans X₂ k₂ s₂ i₂).map KMResult.centers ∧
      (kmeans X₁ k₁ s₁ i₁).map KMResult.assign =
        (kmeans X₂ k₂ s₂ i₂).map KMResult.assign := by
  intro X₁ X₂ k₁ k₂ s₁ s₂ i₁ i₂ hX hk hs hi
  subst hX; subst hk; subst hs; subst hi
  exact ⟨rfl, rfl⟩

/-- Witness for C1 at a concrete invocation. -/
theorem kmeans_deterministic_witness :
    (kmeans [[0], [10]] 2 1337 5).map KMResult.centers =
      (kmeans [[0], [10]] 2 1337 5).map KMResult.centers ∧
    (kmeans [[0], [10]] 2 1337 5).map KMResult.assign =
      (kmeans [[0], [10]] 2 1337 5).map KMResult.assign :=
  kmeans_deterministic [[0], [10]] [[0], [10]] 2 2 1337 1337 5 5 rfl rfl rfl rfl

/-! ### Claim C2 (corrected) -/

/-- Counterexample to C2: with `n = 1` and `k = 2` (outside `[1, n]`) the
clusterer does not fail — it silently returns a result. -/
theorem kmeans_no_validation_counterexample :
    (kmeans [[(0 : ℚ)]] 2 1 25).isSome = true := by decide

/-- C2 amended: for a non-empty matrix and `k` larger than the row count
the clusterer performs no input validation and returns a normal result
instead of failing. -/
theorem kmeans_accepts_large_k :
    ∀ (X : List (List ℚ)) (k seed iters : Nat),
      X ≠ [] → X.length < k → (kmeans X k seed iters).isSome = true := by
  intro X k seed iters hX hk
  have hlen : X.length ≠ 0 := fun h => hX (List.length_eq_zero.mp h)
  have hk0 : k ≠ 0 := by omega
  rw [kmeans, if_neg hlen, if_neg (by simp [hk0])]
  rfl

/-- Witness for the amended C2. -/
theorem kmeans_accepts_large_k_witness :
    (kmeans [[0], [1]] 5 7 3).isSome = true :=
  kmeans_accepts_large_k [[0], [1]] 5 7 3 (by decide) (by decide)

/-! ### Claim C10 -/

/-- C10: `computeStats` takes `maxTime` to be the maximum of
`startTime + duration` over records where that sum is finite and
`minTime` the minimum finite `startTime`, each defaulting to `0`; as a
consequence a record with finite `startTime` but non-finite sum gives
`maxTime = 0 < minTime`. -/
theorem computeStats_minMax :
    (∀ entries : List Entry,
      (computeStats entries).maxTime = specMaxTime entries ∧
      (computeStats entries).minTime = specMinTime entries) ∧
    (computeStats [⟨0, .fin 5, .posInf⟩]).maxTime = 0 ∧
    (computeStats [⟨0, .fin 5, .posInf⟩]).minTime = 5 ∧
    (computeStats [⟨0, .fin 5, .posInf⟩]).maxTime <
      (computeStats [⟨0, .fin 5, .posInf⟩]).minTime := by
  refine ⟨fun entries => ⟨?_, ?_⟩, by decide, by decide, by decide⟩
  · show (if _ ≠ 0 then listMax _ else 0) = _
    rw [specMaxTime, ← finiteOf_eq_filterMap]
    cases finiteOf (entries.map (fun e => e.startTime.add e.duration)) with
    | nil => simp [listMax, List.max?]
    | cons x xs => simp [listMax, List.max?]
  · show (if _ ≠ 0 then listMin _ else 0) = _
    rw [specMinTime, ← finiteOf_eq_filterMap]
    cases finiteOf (entries.map (·.startTime)) with
    | nil => simp [listMin, List.min?]
    | cons x xs => simp [listMin, List.min?]

/-! ### Claim C5 -/

/-- C5: on a non-empty, non-ragged matrix the standardizer keeps the
shape, each output entry is `(row[j] - mu_j) / sd_j` with `mu_j` the
column mean and `sd_j` the sample standard deviation on denominator
`max(1, rowCount-1)`; a zero standard deviation is replaced by `1`, and a
constant column maps to all zeros. -/
theorem normalizeRows_spec :
    ∀ rows : List (List ℝ), rows ≠ [] →
      (∀ r ∈ rows, r.length = (rows.headD []).length) →
      (normalizeRows rows).length = rows.length ∧
      (∀ i, i < rows.length →
        ((normalizeRows rows).getD i []).length = (rows.getD i []).length) ∧
      (∀ i j, i < rows.length → j < (rows.getD i []).length →
        ((normalizeRows rows).getD i []).getD j 0 =
          ((rows.getD i []).getD j 0 - colMean rows j) / colSd rows j) ∧
      (∀ j, colS2 rows j = 0 → colSd rows j = 1) ∧
      (∀ j, (∀ r ∈ rows, r.getD j 0 = (rows.headD []).getD j 0) →
        ∀ i, i < rows.length → ((normalizeRows rows).getD i []).getD j 0 = 0) := by
  intro rows hne _hrect
  have hn : rows.length ≠ 0 := fun h => hne (List.length_eq_zero.mp h)
  have hlen : (normalizeRows rows).length = rows.length := by
    simp [normalizeRows]
  have hrow : ∀ i, i < rows.length →
      (normalizeRows rows).getD i [] =
        (rows.getD i []).mapIdx
          (fun j x => (x - colMean rows j) / colSd rows j) := by
    intro i hi
    rw [List.getD_eq_getElem _ _ (by simpa [hlen] using hi),
      List.getD_eq_getElem _ _ hi]
    simp only [normalizeRows, List.getElem_map]
  have hentry : ∀ i j, i < rows.length → j < (rows.getD i []).length →
      ((normalizeRows rows).getD i []).getD j 0 =
        ((rows.getD i []).getD j 0 - colMean rows j) / colSd rows j := by
    intro i j hi hj
    rw [hrow i hi, List.getD_eq_getElem _ _ (by simpa using hj),
      List.getD_eq_getElem _ _ hj, List.getElem_mapIdx]
  refine ⟨hlen, fun i hi => by rw [hrow i hi]; simp, hentry, fun j h2 => ?_, ?_⟩
  · rw [colSd, h2]
    simp
  · intro j hconst i hi
    -- the column is constant, so its mean is that constant and every
    -- centered entry vanishes
    by_cases hj : j < (rows.getD i []).length
    · rw [hentry i j hi hj]
      have hmem : rows.getD i [] ∈ rows := by
        rw [List.getD_eq_getElem _ _ hi]
        exact List.getElem_mem _
      have hmu : colMean rows j = (rows.headD []).getD j 0 := by
        rw [colMean, colSum,
          List.sum_eq_card_nsmul (rows.map (fun r => r.getD j 0))
            ((rows.headD []).getD j 0)
            (by
              intro x hx
              obtain ⟨r, hr, rfl⟩ := List.mem_map.mp hx
              exact hconst r hr)]
        rw [List.length_map, nsmul_eq_mul]
        field_simp
      rw [hmu, hconst _ hmem, sub_self, zero_div]
    · rw [hrow i hi,
        List.getD_eq_default _ _ (by simp only [List.length_mapIdx]; omega)]

/-- Witness for C5 on the concrete matrix `[[0],[1],[2]]`. -/
theorem normalizeRows_spec_witness :
    ((normalizeRows [[0], [1], [2]]).getD 1 []).getD 0 0 =
      (((([[0], [1], [2]] : List (List ℝ)).getD 1 []).getD 0 0) -
        colMean [[0], [1], [2]] 0) / colSd [[0], [1], [2]] 0 :=
  (normalizeRows_spec [[0], [1], [2]] (by simp)
    (by intro r hr; fin_cases hr <;> rfl)).2.2.1 1 0 (by simp) (by simp)

/-! ### Claim C9 -/

/-- The assignment scan keeps its accumulator below `k` as long as every
scanned center index is below `k`. -/
lemma nearest_fold_lt (x : List ℚ) (centers : List (List ℚ)) (k : Nat) :
    ∀ (l : List Nat) (acc : Nat × Option ℚ), (∀ j ∈ l, j < k) → acc.1 < k →
      (l.foldl
        (fun bd j =>
          let dd := sqDist x (centers.getD j [])
          match bd.2 with
          | none => (j, some dd)
          | some b => if dd < b then (j, some dd) else bd) acc).1 < k := by
  intro l
  induction l with
  | nil => intro acc _ hacc; simpa using hacc
  | cons j js ih =>
    intro acc hmem hacc
    simp only [List.foldl_cons]
    apply ih _ (fun m hm => hmem m (List.mem_cons_of_mem _ hm))
    have hj : j < k := hmem j (List.mem_cons_self _ _)
    rcases h2 : acc.2 with _ | b
    · simpa [h2] using hj
    · simp only [h2]
      split
      · simpa using hj
      · simpa using hacc

/-- Every assignment value produced by the scan lies in `[0, k)`. -/
lemma nearestIdx_lt (k : Nat) (centers : List (List ℚ)) (x : List ℚ)
    (hk : 0 < k) : nearestIdx k centers x < k := by
  rw [nearestIdx]
  exact nearest_fold_lt x centers k (List.range k)
    ((0 : Nat), (none : Option ℚ)) (fun j hj => List.mem_range.mp hj) hk

/-- The Lloyd loop preserves the assignment invariant: one entry per row,
every entry in `[0, k)`. -/
lemma lloydLoop_assign_inv (X : List (List ℚ)) (k d : Nat) (hk : 0 < k) :
    ∀ (fuel : Nat) (st : LState),
      st.assign.length = X.length → (∀ a ∈ st.assign, a < k) →
      (lloydLoop X k d fuel st).1.assign.length = X.length ∧
        ∀ a ∈ (lloydLoop X k d fuel st).1.assign, a < k := by
  intro fuel
  induction fuel with
  | zero => intro st h1 h2; exact ⟨h1, h2⟩
  | succ fuel ih =>
    intro st h1 h2
    rw [lloydLoop]
    have hr1 : (lloydRound X k d st).1.assign.length = X.length := by
      simp [lloydRound]
    have hr2 : ∀ a ∈ (lloydRound X k d st).1.assign, a < k := by
      intro a ha
      simp only [lloydRound, List.mem_map] at ha
      obtain ⟨x, _, rfl⟩ := ha
      exact nearestIdx_lt k st.centers x hk
    split
    · exact ⟨hr1, hr2⟩
    · exact ih _ hr1 hr2

/-- C9: for `1 ≤ k ≤ n`, the clusterer returns one assignment entry per
input row, each an index in `[0, k)`. -/
theorem kmeans_assign_valid :
    ∀ (X : List (List ℚ)) (k seed iters : Nat) (r : KMResult),
      1 ≤ k → k ≤ X.length → kmeans X k seed iters = some r →
      r.assign.length = X.length ∧ ∀ a ∈ r.assign, a < k := by
  intro X k seed iters r hk hkn hrun
  have hn : X.length ≠ 0 := by omega
  have hk0 : k ≠ 0 := by omega
  rw [kmeans, if_neg hn, if_neg (by simp [hk0])] at hrun
  have hres := lloydLoop_assign_inv X k (X.headD []).length (by omega) iters
    ⟨(kmeansInit X k seed).1, List.replicate X.length 0, (kmeansInit X k seed).2⟩
    (by simp) (by intro a ha; rw [List.eq_of_mem_replicate ha]; omega)
  obtain rfl : r = ⟨_, _⟩ := (Option.some_inj.mp hrun).symm
  exact hres

/-- Witness for C9 at a concrete clustering run. -/
theorem kmeans_assign_valid_witness :
    (KMResult.mk [[0]] [0]).assign.length = ([[(0 : ℚ)]] : List (List ℚ)).length ∧
      ∀ a ∈ (KMResult.mk [[0]] [0]).assign, a < 1 :=
  kmeans_assign_valid [[(0 : ℚ)]] 1 1 1 ⟨[[0]], [0]⟩ (by decide) (by decide)
    (by decide)

/-! ### Claim C8 -/

/-- Unfolding the Lloyd loop on a converged round (`changed = 0`). -/
lemma lloydLoop_succ_stop (X : List (List ℚ)) (k d fuel : Nat) (st : LState)
    (h : (lloydRound X k d st).2 = 0) :
    lloydLoop X k d (fuel + 1) st =
      ((lloydRound X k d st).1, [(lloydRound X k d st).2]) := by
  rw [lloydLoop]
  simp [h]

/-- Unfolding the Lloyd loop on a round with changes. -/
lemma lloydLoop_succ_go (X : List (List ℚ)) (k d fuel : Nat) (st : LState)
    (h : (lloydRound X k d st).2 ≠ 0) :
    lloydLoop X k d (fuel + 1) st =
      ((lloydLoop X k d fuel (lloydRound X k d st).1).1,
        (lloydRound X k d st).2 ::
          (lloydLoop X k d fuel (lloydRound X k d st).1).2) := by
  rw [lloydLoop]
  simp [h]

/-- With fuel left, the Lloyd loop always executes at least one round. -/
lemma lloydLoop_trace_ne_nil (X : List (List ℚ)) (k d : Nat) (fuel : Nat)
    (st : LState) (hf : fuel ≠ 0) : (lloydLoop X k d fuel st).2 ≠ [] := by
  cases fuel with
  | zero => exact absurd rfl hf
  | succ fuel =>
    by_cases h : (lloydRound X k d st).2 = 0
    · rw [lloydLoop_succ_stop X k d fuel st h]
      simp
    · rw [lloydLoop_succ_go X k d fuel st h]
      simp

/-- C8: the Lloyd loop inside the clusterer (invoked by `kmeans` with
`fuel = maxIterations`) executes at most `maxIterations` assign/update
rounds, stops early only right after a round in which no assignment
changed, and never continues past such a round — so early termination
happens exactly on a no-change round. -/
theorem lloyd_convergence :
    ∀ (X : List (List ℚ)) (k d fuel : Nat) (st : LState),
      (lloydLoop X k d fuel st).2.length ≤ fuel ∧
      ((lloydLoop X k d fuel st).2.length < fuel →
        (lloydLoop X k d fuel st).2.getLast? = some 0) ∧
      (∀ c ∈ (lloydLoop X k d fuel st).2.dropLast, c ≠ 0) := by
  intro X k d fuel
  induction fuel with
  | zero =>
    intro st
    exact ⟨le_refl 0, fun h => absurd h (by omega), by rw [lloydLoop]; simp⟩
  | succ fuel ih =>
    intro st
    by_cases hch : (lloydRound X k d st).2 = 0
    · rw [lloydLoop_succ_stop X k d fuel st hch]
      exact ⟨by simp, fun _ => by simp [hch], by simp⟩
    · rw [lloydLoop_succ_go X k d fuel st hch]
      obtain ⟨ih1, ih2, ih3⟩ := ih (lloydRound X k d st).1
      refine ⟨by simpa using ih1, fun hlt => ?_, fun c hc => ?_⟩
      · have hlt2 : (lloydLoop X k d fuel (lloydRound X k d st).1).2.length < fuel := by
          simpa using hlt
        have htr : (lloydLoop X k d fuel (lloydRound X k d st).1).2 ≠ [] := by
          apply lloydLoop_trace_ne_nil
          intro h0
          rw [h0, lloydLoop] at hlt2
          simp at hlt2
        obtain ⟨a, as, hq⟩ := List.exists_cons_of_ne_nil htr
        simp only [hq, List.getLast?_cons_cons]
        rw [← hq]
        exact ih2 hlt2
      · rcases hq : (lloydLoop X k d fuel (lloydRound X k d st).1).2 with _ | ⟨a, as⟩
        · simp [hq] at hc
        · rw [hq, List.dropLast_cons₂] at hc
          rcases List.mem_cons.mp hc with rfl | hmem
          · exact hch
          · exact ih3 c (by rw [hq]; exact hmem)

/-- Witness for C8: a run that converges in one round out of two. -/
theorem lloyd_convergence_witness :
    (lloydLoop [[0], [1]] 1 1 2 ⟨[[0]], [0, 0], 1⟩).2.length ≤ 2 ∧
      (lloydLoop [[0], [1]] 1 1 2 ⟨[[0]], [0, 0], 1⟩).2.getLast? = some 0 :=
  ⟨(lloyd_convergence [[0], [1]] 1 1 2 ⟨[[0]], [0, 0], 1⟩).1,
    (lloyd_convergence [[0], [1]] 1 1 2 ⟨[[0]], [0, 0], 1⟩).2.1 (by decide)⟩

/-! ### Claim C7 -/

lemma listMin_eq_minD (l : List ℚ) : listMin l = (l.min?).getD 0 := by
  cases l with
  | nil => rfl
  | cons x xs => simp [listMin, List.min?]

lemma foldl_add_eq_sum (l : List ℚ) : ∀ a : ℚ, l.foldl (· + ·) a = a + l.sum := by
  induction l with
  | nil => intro a; simp
  | cons x xs ih => intro a; simp [ih, add_assoc]

/-- The selection walk of the source equals the first prefix-sum
crossing of the spec, with the shared fallback index `0`. -/
lemma walkIdx_eq_find (ds : List ℚ) : ∀ (r : ℚ) (i : Nat),
    walkIdx r ds i =
      match (List.range ds.length).find?
          (fun m => r ≤ ((ds.take (m + 1)).sum)) with
      | some m => i + m
      | none => 0 := by
  induction ds with
  | nil => intro r i; simp [walkIdx]
  | cons dd tl ih =>
    intro r i
    by_cases h0 : r - dd ≤ 0
    · rw [walkIdx, if_pos h0]
      have hfind : (List.range (dd :: tl).length).find?
          (fun m => r ≤ (((dd :: tl).take (m + 1)).sum)) = some 0 := by
        rw [List.length_cons, List.range_succ_eq_map, List.find?_cons]
        have hp : decide (r ≤ (((dd :: tl).take (0 + 1)).sum)) = true := by
          rw [decide_eq_true_eq]
          simp only [List.take_succ_cons, List.take_zero, List.sum_cons,
            List.sum_nil, add_zero]
          linarith
        simp only [hp]
      rw [hfind]
      show i = i + 0
      omega
    · have hp : decide (r ≤ (((dd :: tl).take (0 + 1)).sum)) = false := by
        rw [decide_eq_false_iff_not]
        simp only [List.take_succ_cons, List.take_zero, List.sum_cons,
          List.sum_nil, add_zero]
        intro hle
        exact h0 (by linarith)
      rw [walkIdx, if_neg h0, ih (r - dd) (i + 1)]
      have hfind : (List.range (dd :: tl).length).find?
          (fun m => r ≤ (((dd :: tl).take (m + 1)).sum))
          = ((List.range tl.length).find?
              (fun m => r - dd ≤ ((tl.take (m + 1)).sum))).map Nat.succ := by
        rw [List.length_cons, List.range_succ_eq_map, List.find?_cons]
        simp only [hp]
        rw [List.find?_map]
        have hfun : ((fun m => decide (r ≤ (((dd :: tl).take (m + 1)).sum))) ∘
              Nat.succ) =
            (fun m => decide (r - dd ≤ ((tl.take (m + 1)).sum))) := by
          funext m
          simp only [Function.comp_apply, List.take_succ_cons, List.sum_cons]
          rw [decide_eq_decide]
          constructor
          · intro h; linarith
          · intro h; linarith
        rw [hfun]
      rw [hfind]
      rcases (List.range tl.length).find?
          (fun m => (r - dd ≤ ((tl.take (m + 1)).sum) : Bool)) with _ | m
      · rfl
      · show i + 1 + m = i + (m + 1)
        omega

/-- One source selection round equals one spec selection round. -/
lemma chooseNext_eq_spec (X : List (List ℚ)) (centers : List (List ℚ))
    (rng : Nat) : chooseNext X centers rng = specChoose X centers rng := by
  rw [chooseNext, specChoose]
  have hdist : X.map (fun x => listMin (centers.map (fun c => sqDist x c))) =
      X.map (fun x => ((centers.map (fun c => sqDist x c)).min?).getD 0) :=
    List.map_congr_left (fun x _ => listMin_eq_minD _)
  rw [hdist]
  set dist := X.map (fun x => ((centers.map (fun c => sqDist x c)).min?).getD 0)
  rw [foldl_add_eq_sum, zero_add]
  have hidx : walkIdx ((mulberryNext rng).1 * dist.sum) dist 0 =
      specSelect ((mulberryNext rng).1 * dist.sum) dist := by
    rw [walkIdx_eq_find, specSelect]
    rcases (List.range dist.length).find?
        (fun m => (mulberryNext rng).1 * dist.sum ≤ ((dist.take (m + 1)).sum)) with _ | m
    · rfl
    · simp
  rw [hidx]

/-- C7: the k-means++ initialization used by `kmeans` picks the first
center at `X[floor(rand()*n)]` and every further center by nearest-center
squared distances, threshold `r = rand() * sum(distances)` and the
input-order subtraction walk selecting the first point where the running
value drops to `≤ 0`. -/
theorem kmeansInit_spec :
    ∀ (X : List (List ℚ)) (k seed : Nat),
      kmeansInit X k seed = specInit X k seed := by
  intro X k seed
  have hloop : ∀ (m : Nat) (st : List (List ℚ) × Nat),
      initLoop X m st = specInitLoop X m st := by
    intro m
    induction m with
    | zero => intro st; rfl
    | succ m ih =>
      intro st
      rw [initLoop, specInitLoop, chooseNext_eq_spec, ih]
  rw [kmeansInit, specInit, hloop, drawIndex, ratFloor_eq]


/-! ### Claim C3 -/

/-- The spec's z-score formula `(d - med) * 0.6745 / mad` agrees with the
source's `(d - med) * (0.6745 / mad)`. -/
lemma specScored_eq_scored (med mad : ℚ) :
    specScored med mad = scored med ((6745/10000) / mad) := by
  funext e
  simp [specScored, scored, mul_div_assoc]

lemma sortScoredDesc_sorted (l : List Scored) :
    (sortScoredDesc l).Sorted (fun a b => b.z ≤ a.z) :=
  List.sorted_insertionSort _ l

/-- The detector returns either the empty list or a truncated descending
sort. -/
lemma robustZOutliers_shape (entries : List Entry) (topN : Nat) :
    robustZOutliers entries topN = [] ∨
      ∃ l, robustZOutliers entries topN = (sortScoredDesc l).take topN := by
  simp only [robustZOutliers]
  split
  · exact Or.inl rfl
  · exact Or.inr ⟨_, rfl⟩

/-- C3: with at least 8 finite durations the detector returns exactly the
finite-duration records whose robust z-score
`z = (duration - med) * 0.6745 / mad` exceeds 2.5 — `med` the median of
the finite durations, `mad` the median absolute deviation with zero
replaced by `1e-9` — sorted by z descending and truncated to `topN`. -/
theorem robustZOutliers_spec :
    ∀ (entries : List Entry) (topN : Nat),
      8 ≤ (finiteOf (entries.map (·.duration))).length →
      robustZOutliers entries topN = specOutliers entries topN ∧
      (robustZOutliers entries topN).Sorted (fun a b => b.z ≤ a.z) ∧
      (robustZOutliers entries topN).length ≤ topN := by
  intro entries topN h8
  have hsorted : (robustZOutliers entries topN).Sorted (fun a b => b.z ≤ a.z) := by
    rcases robustZOutliers_shape entries topN with h | ⟨l, h⟩
    · rw [h]; exact List.sorted_nil
    · rw [h]
      exact List.Pairwise.sublist (List.take_sublist _ _) (sortScoredDesc_sorted l)
  have hlen : (robustZOutliers entries topN).length ≤ topN := by
    rcases robustZOutliers_shape entries topN with h | ⟨l, h⟩
    · simp [h]
    · rw [h, List.length_take]
      exact min_le_left _ _
  refine ⟨?_, hsorted, hlen⟩
  have hslen := sortAsc_length (finiteOf (entries.map (·.duration)))
  have hcond : ¬ (sortAsc (finiteOf (entries.map (·.duration)))).length < 8 := by
    omega
  have hne : ¬ ((finiteOf (entries.map (·.duration))).length = 0) := by omega
  simp only [robustZOutliers, specOutliers]
  rw [if_neg hcond]
  have hmed : percentile (finiteOf (entries.map (·.duration))) (1/2) =
      percentileSorted (sortAsc (finiteOf (entries.map (·.duration)))) (1/2) := by
    rw [percentile, if_neg hne]
  rw [hmed]
  have hperm : List.Perm
      ((sortAsc (finiteOf (entries.map (·.duration)))).map
        (fun x =>
          |x - percentileSorted (sortAsc (finiteOf (entries.map (·.duration)))) (1/2)|))
      ((finiteOf (entries.map (·.duration))).map
        (fun x =>
          |x - percentileSorted (sortAsc (finiteOf (entries.map (·.duration)))) (1/2)|)) :=
    (sortAsc_perm _).map _
  have hmad0 : percentile
      ((finiteOf (entries.map (·.duration))).map
        (fun x =>
          |x - percentileSorted (sortAsc (finiteOf (entries.map (·.duration)))) (1/2)|))
      (1/2) =
      median (sortAsc
        ((sortAsc (finiteOf (entries.map (·.duration)))).map
          (fun x =>
            |x - percentileSorted (sortAsc (finiteOf (entries.map (·.duration)))) (1/2)|))) := by
    rw [median, percentile, if_neg (by simpa using hne), sortAsc_congr_perm hperm]
  rw [hmad0, specScored_eq_scored]

/-- Witness for C3: the spec's own 9-sample example, durations
`[10 × 8, 1000]`. -/
theorem robustZOutliers_spec_witness :
    robustZOutliers
        [⟨0, .fin 0, .fin 10⟩, ⟨1, .fin 0, .fin 10⟩, ⟨2, .fin 0, .fin 10⟩,
         ⟨3, .fin 0, .fin 10⟩, ⟨4, .fin 0, .fin 10⟩, ⟨5, .fin 0, .fin 10⟩,
         ⟨6, .fin 0, .fin 10⟩, ⟨7, .fin 0, .fin 10⟩, ⟨8, .fin 0, .fin 1000⟩] 10 =
      specOutliers
        [⟨0, .fin 0, .fin 10⟩, ⟨1, .fin 0, .fin 10⟩, ⟨2, .fin 0, .fin 10⟩,
         ⟨3, .fin 0, .fin 10⟩, ⟨4, .fin 0, .fin 10⟩, ⟨5, .fin 0, .fin 10⟩,
         ⟨6, .fin 0, .fin 10⟩, ⟨7, .fin 0, .fin 10⟩, ⟨8, .fin 0, .fin 1000⟩] 10 ∧
    (robustZOutliers
        [⟨0, .fin 0, .fin 10⟩, ⟨1, .fin 0, .fin 10⟩, ⟨2, .fin 0, .fin 10⟩,
         ⟨3, .fin 0, .fin 10⟩, ⟨4, .fin 0, .fin 10⟩, ⟨5, .fin 0, .fin 10⟩,
         ⟨6, .fin 0, .fin 10⟩, ⟨7, .fin 0, .fin 10⟩, ⟨8, .fin 0, .fin 1000⟩] 10).Sorted
      (fun a b => b.z ≤ a.z) ∧
    (robustZOutliers
        [⟨0, .fin 0, .fin 10⟩, ⟨1, .fin 0, .fin 10⟩, ⟨2, .fin 0, .fin 10⟩,
         ⟨3, .fin 0, .fin 10⟩, ⟨4, .fin 0, .fin 10⟩, ⟨5, .fin 0, .fin 10⟩,
         ⟨6, .fin 0, .fin 10⟩, ⟨7, .fin 0, .fin 10⟩, ⟨8, .fin 0, .fin 1000⟩] 10).length ≤ 10 :=
  robustZOutliers_spec _ 10 (by decide)

end PerfScope
